import Mathlib

/-!
Verification of the Kaspa Portfolio Projector projection engine (`kpp.py`).

The Python source computes with IEEE doubles; here the numeric values are
embedded as exact rationals (`ℚ`), with Python's `round(x, 2)`
(round-half-to-even at two decimals) modelled exactly by `pyRound2`.
The one genuinely transcendental piece, `np.geomspace` (real powers), has no
exact rational form, so the development is parameterized over the sampling
function, constrained by `GeomSpec` to the property of `np.geomspace`
actually used downstream: with `0 < start < stop`, every sample lies in
`[start, stop]`.  `linGeom` is a concrete rational sampler satisfying the
interface, used to instantiate concrete evaluations.
The slider synchronizer (`update_slider_values` / `update_slider_from_entry`)
genuinely computes real powers and logarithms, so it is embedded over `ℝ`.
-/

namespace KPP

/-- Round a rational to the nearest integer, ties to even — the rounding rule
of Python 3's builtin `round`. -/
def roundHalfEven (x : ℚ) : ℤ :=
  if Int.fract x < 1/2 then ⌊x⌋
  else if 1/2 < Int.fract x then ⌊x⌋ + 1
  else if ⌊x⌋ % 2 = 0 then ⌊x⌋ else ⌊x⌋ + 1

/-- Python's `round(x, 2)`: round to two decimal places, ties to even. -/
def pyRound2 (x : ℚ) : ℚ :=
  (roundHalfEven (x * 100) : ℚ) / 100

theorem roundHalfEven_intCast (k : ℤ) : roundHalfEven (k : ℚ) = k := by
  unfold roundHalfEven
  simp [Int.fract_intCast]

theorem roundHalfEven_bounds (x : ℚ) :
    (⌊x⌋ : ℤ) ≤ roundHalfEven x ∧ roundHalfEven x ≤ ⌊x⌋ + 1 := by
  unfold roundHalfEven
  split_ifs <;> omega

theorem roundHalfEven_eq_floor {x : ℚ} (h : Int.fract x < 1/2) :
    roundHalfEven x = ⌊x⌋ := by
  unfold roundHalfEven
  rw [if_pos h]

theorem roundHalfEven_eq_ceil {x : ℚ} (h : 1/2 < Int.fract x) :
    roundHalfEven x = ⌊x⌋ + 1 := by
  unfold roundHalfEven
  rw [if_neg (by linarith), if_pos h]

theorem roundHalfEven_mono {x y : ℚ} (h : x ≤ y) :
    roundHalfEven x ≤ roundHalfEven y := by
  rcases lt_or_eq_of_le (Int.floor_mono h) with hf | hf
  · have hx := roundHalfEven_bounds x
    have hy := roundHalfEven_bounds y
    omega
  · -- same floor: compare fractional parts
    have hfr : Int.fract x ≤ Int.fract y := by
      unfold Int.fract
      rw [hf]
      exact sub_le_sub_right h _
    by_cases h1 : Int.fract x < 1/2
    · rw [roundHalfEven_eq_floor h1]
      have := roundHalfEven_bounds y
      omega
    · by_cases h2 : 1/2 < Int.fract y
      · rw [roundHalfEven_eq_ceil h2]
        have := roundHalfEven_bounds x
        omega
      · have hxy : x = y := by
          have hx2 : Int.fract x = 1/2 :=
            le_antisymm (le_trans hfr (not_lt.1 h2)) (not_lt.1 h1)
          have hy2 : Int.fract y = 1/2 := le_antisymm (not_lt.1 h2) (le_trans (not_lt.1 h1) hfr)
          have ex : Int.fract x + ⌊x⌋ = x := Int.fract_add_floor x
          have ey : Int.fract y + ⌊y⌋ = y := Int.fract_add_floor y
          rw [hx2, hf] at ex
          rw [hy2] at ey
          linarith
        rw [hxy]

theorem pyRound2_mono {x y : ℚ} (h : x ≤ y) : pyRound2 x ≤ pyRound2 y := by
  unfold pyRound2
  have := roundHalfEven_mono (mul_le_mul_of_nonneg_right h (by norm_num : (0:ℚ) ≤ 100))
  have hc : ((roundHalfEven (x * 100) : ℤ) : ℚ) ≤ ((roundHalfEven (y * 100) : ℤ) : ℚ) := by
    exact_mod_cast this
  linarith

theorem pyRound2_idem (x : ℚ) : pyRound2 (pyRound2 x) = pyRound2 x := by
  unfold pyRound2
  rw [div_mul_cancel₀ _ (by norm_num : (100:ℚ) ≠ 0)]
  rw [roundHalfEven_intCast]

/-- Model of `np.linspace(a, b, num=n)`: `n` evenly spaced samples
`a + i * (b - a) / (n - 1)`, endpoints included (exact in rational
arithmetic). -/
def linspace (a b : ℚ) (n : ℕ) : List ℚ :=
  (List.range n).map (fun i : ℕ => a + (b - a) * (i : ℚ) / ((n : ℚ) - 1))

theorem linspace_mem_bounds {a b : ℚ} (hab : a ≤ b) {n : ℕ} {x : ℚ}
    (hx : x ∈ linspace a b n) : a ≤ x ∧ x ≤ b := by
  simp only [linspace, List.mem_map, List.mem_range] at hx
  obtain ⟨i, hi, rfl⟩ := hx
  rcases Nat.lt_or_ge n 2 with hn | hn
  · -- n = 1 (n = 0 has no members): the only sample is `a + (b-a)*0/0 = a`
    interval_cases n
    · omega
    · interval_cases i
      norm_num
      exact hab
  · have hd : (0:ℚ) < (n : ℚ) - 1 := by
      have : (2:ℚ) ≤ (n : ℚ) := by exact_mod_cast hn
      linarith
    have hi1 : (i : ℚ) ≤ (n : ℚ) - 1 := by
      have : (i : ℚ) + 1 ≤ (n : ℚ) := by exact_mod_cast hi
      linarith
    constructor
    · have : 0 ≤ (b - a) * i / ((n : ℚ) - 1) :=
        div_nonneg (mul_nonneg (by linarith) (by positivity)) (le_of_lt hd)
      linarith
    · have hnum : (b - a) * i ≤ (b - a) * ((n : ℚ) - 1) :=
        mul_le_mul_of_nonneg_left hi1 (by linarith)
      have : (b - a) * i / ((n : ℚ) - 1) ≤ b - a := by
        rw [div_le_iff₀ hd]
        linarith [hnum]
      linarith

/-- Type of the geometric sampler `np.geomspace(start, stop, num)`. -/
def GeomFn : Type := ℚ → ℚ → ℕ → List ℚ

/-- The property of `np.geomspace` the projection engine relies on: with
`0 < start < stop`, every sample `start * (stop/start)^(i/(num-1))` lies in
`[start, stop]`.  The samples themselves are transcendental reals, so the
sampler is kept abstract and constrained by this interface. -/
def GeomSpec (gs : GeomFn) : Prop :=
  ∀ a b : ℚ, ∀ n : ℕ, ∀ x ∈ gs a b n, 0 < a → a < b → a ≤ x ∧ x ≤ b

/-- A concrete rational sampler satisfying `GeomSpec`, used to instantiate
the abstract sampler on concrete inputs. -/
def linGeom : GeomFn := fun a b n => linspace a b n

theorem linGeom_spec : GeomSpec linGeom := by
  intro a b n x hx _ hab
  exact linspace_mem_bounds (le_of_lt hab) hx

/-- The sampler returning no samples; it satisfies `GeomSpec` vacuously and
instantiates the abstract sampler where its output is irrelevant. -/
def gsEmpty : GeomFn := fun _ _ _ => []

theorem gsEmpty_spec : GeomSpec gsEmpty := by
  intro a b n x hx
  cases hx

theorem roundHalfEven_eq_of_lt {x : ℚ} {k : ℤ} (hf : ⌊x⌋ = k)
    (h : x - k < 1/2) : roundHalfEven x = k := by
  have hfr : Int.fract x < 1/2 := by
    unfold Int.fract
    rw [hf]
    exact h
  rw [roundHalfEven_eq_floor hfr, hf]

theorem roundHalfEven_eq_of_gt {x : ℚ} {k : ℤ} (hf : ⌊x⌋ = k)
    (h : 1/2 < x - k) : roundHalfEven x = k + 1 := by
  have hfr : 1/2 < Int.fract x := by
    unfold Int.fract
    rw [hf]
    exact h
  rw [roundHalfEven_eq_ceil hfr, hf]

theorem pyRound2_eval_lt {x : ℚ} {k : ℤ} (hf : ⌊x * 100⌋ = k)
    (h : x * 100 - k < 1/2) : pyRound2 x = (k : ℚ) / 100 := by
  unfold pyRound2
  rw [roundHalfEven_eq_of_lt hf h]

theorem pyRound2_eval_gt {x : ℚ} {k : ℤ} (hf : ⌊x * 100⌋ = k)
    (h : 1/2 < x * 100 - k) : pyRound2 x = ((k : ℚ) + 1) / 100 := by
  unfold pyRound2
  rw [roundHalfEven_eq_of_gt hf h]
  push_cast
  ring_nf

theorem pyRound2_cent : pyRound2 (1/100 : ℚ) = 1/100 := by
  rw [pyRound2_eval_lt (k := 1) (by norm_num) (by norm_num)]
  norm_num

theorem pyRound2_two_cent : pyRound2 (2/100 : ℚ) = 2/100 := by
  rw [pyRound2_eval_lt (k := 2) (by norm_num) (by norm_num)]
  norm_num

theorem pairwise_lt_of_pairwise_le {α : Type} [LinearOrder α] {l : List α}
    (h1 : l.Pairwise (· ≤ ·)) (h2 : l.Nodup) : l.Pairwise (· < ·) :=
  (h1.and h2).imp (fun h => lt_of_le_of_ne h.1 h.2)

/-- Model of Python's `sorted({...})` on rational values: drop duplicates,
then sort ascending. -/
def sortedDedup (l : List ℚ) : List ℚ :=
  List.insertionSort (· ≤ ·) l.dedup

theorem sortedDedup_mem {l : List ℚ} {x : ℚ} : x ∈ sortedDedup l ↔ x ∈ l := by
  unfold sortedDedup
  rw [(List.perm_insertionSort _ _).mem_iff, List.mem_dedup]

theorem sortedDedup_nodup (l : List ℚ) : (sortedDedup l).Nodup :=
  (List.perm_insertionSort _ _).nodup_iff.mpr l.nodup_dedup

theorem sortedDedup_sorted (l : List ℚ) : (sortedDedup l).Pairwise (· < ·) :=
  pairwise_lt_of_pairwise_le (List.sorted_insertionSort _ _) (sortedDedup_nodup l)

/-- Model of `generate_price_intervals` (kpp.py:328-335).  A below-section of
9 linearly spaced points from `min_price` up to one cent below the clamped
anchor, the anchor itself, and an above-section of 240 geometrically spaced
points from one cent above the anchor up to `max_price`; everything rounded
to 2 decimals, deduplicated and sorted. -/
def generate_price_intervals (gs : GeomFn) (current_price_usd : ℚ)
    (min_price : ℚ := 1/100) (max_price : ℚ := 1000) : List ℚ :=
  let cp := pyRound2 (max current_price_usd (1/100))
  let red_max := max (min (cp - 1/100) cp) min_price
  let red_intervals := if min_price < red_max then linspace min_price red_max 9 else []
  let black := [cp]
  let green_start := pyRound2 (cp + 1/100)
  let green_intervals := if max_price ≤ green_start then [] else gs green_start max_price 240
  sortedDedup ((red_intervals ++ black ++ green_intervals).map pyRound2)

theorem generate_price_intervals_mem {gs : GeomFn} {cp mn mx x : ℚ} :
    x ∈ generate_price_intervals gs cp mn mx ↔
      x ∈ ((if mn < max (min (pyRound2 (max cp (1/100)) - 1/100) (pyRound2 (max cp (1/100)))) mn
              then linspace mn (max (min (pyRound2 (max cp (1/100)) - 1/100) (pyRound2 (max cp (1/100)))) mn) 9 else []) ++
            [pyRound2 (max cp (1/100))] ++
            (if mx ≤ pyRound2 (pyRound2 (max cp (1/100)) + 1/100) then []
              else gs (pyRound2 (pyRound2 (max cp (1/100)) + 1/100)) mx 240)).map pyRound2 := by
  unfold generate_price_intervals
  exact sortedDedup_mem

theorem generate_price_intervals_sorted (gs : GeomFn) (cp mn mx : ℚ) :
    (generate_price_intervals gs cp mn mx).Pairwise (· < ·) := by
  unfold generate_price_intervals
  exact sortedDedup_sorted _

theorem generate_price_intervals_nodup (gs : GeomFn) (cp mn mx : ℚ) :
    (generate_price_intervals gs cp mn mx).Nodup := by
  unfold generate_price_intervals
  exact sortedDedup_nodup _

/-- Every element of the interval list is its own 2-decimal rounding. -/
theorem generate_price_intervals_rounded {gs : GeomFn} {cp mn mx x : ℚ}
    (hx : x ∈ generate_price_intervals gs cp mn mx) : x = pyRound2 x := by
  rw [generate_price_intervals_mem, List.mem_map] at hx
  obtain ⟨y, _, rfl⟩ := hx
  exact (pyRound2_idem y).symm

/-- The clamped anchor `round(max(current_price_usd, 0.01), 2)` is always in
the interval list. -/
theorem anchor_mem_generate_price_intervals (gs : GeomFn) (cp mn mx : ℚ) :
    pyRound2 (max cp (1/100)) ∈ generate_price_intervals gs cp mn mx := by
  rw [generate_price_intervals_mem]
  rw [List.mem_map]
  refine ⟨pyRound2 (max cp (1/100)), ?_, pyRound2_idem _⟩
  simp

theorem generate_price_intervals_ne_nil (gs : GeomFn) (cp mn mx : ℚ) :
    generate_price_intervals gs cp mn mx ≠ [] :=
  List.ne_nil_of_mem (anchor_mem_generate_price_intervals gs cp mn mx)

/-- With the default floor/ceiling and any sampler obeying `GeomSpec`, every
generated interval price is at least one cent. -/
theorem generate_price_intervals_ge {gs : GeomFn} (hgs : GeomSpec gs) (cp : ℚ) :
    ∀ x ∈ generate_price_intervals gs cp, 1/100 ≤ x := by
  intro x hx
  rw [generate_price_intervals_mem, List.mem_map] at hx
  obtain ⟨y, hy, rfl⟩ := hx
  have hcpR : (1/100 : ℚ) ≤ pyRound2 (max cp (1/100)) := by
    have h := pyRound2_mono (le_max_right cp (1/100))
    rw [pyRound2_cent] at h
    exact h
  suffices hy' : 1/100 ≤ y by
    calc (1/100 : ℚ) = pyRound2 (1/100) := pyRound2_cent.symm
      _ ≤ pyRound2 y := pyRound2_mono hy'
  simp only [List.mem_append, List.mem_singleton] at hy
  rcases hy with (hy | hy) | hy
  · split_ifs at hy with hg
    · exact (linspace_mem_bounds (le_trans (le_of_lt hg) le_rfl) hy).1
    · cases hy
  · rw [hy]
    exact hcpR
  · split_ifs at hy with hg
    · cases hy
    · have hstart : (2/100 : ℚ) ≤ pyRound2 (pyRound2 (max cp (1/100)) + 1/100) := by
        have h2 : pyRound2 (2/100 : ℚ) ≤ pyRound2 (pyRound2 (max cp (1/100)) + 1/100) :=
          pyRound2_mono (by linarith)
        rw [pyRound2_two_cent] at h2
        exact h2
      have := (hgs _ 1000 240 y hy (by linarith) (by linarith [not_le.1 hg])).1
      linarith

/-- One row of the projection table (one row of the `pandas.DataFrame` built
in `generate_portfolio_projection`): display price, base USD price,
portfolio value, market cap, and the color classifying the row against the
anchor (`red` below, `black` at, `green` above). -/
structure Row where
  disp : ℚ
  usd : ℚ
  portfolio : ℚ
  mcap : ℚ
  color : String
  deriving DecidableEq

instance : Inhabited Row := ⟨⟨0, 0, 0, 0, ""⟩⟩

/-- Fallback exchange-rate table (kpp.py:94-101), base USD.  Fetched live
rates overwrite these in place; the projection functions below therefore take
the rate table as an explicit parameter, with this value as the shipped
snapshot. -/
def EXCHANGE_RATES_LIST : List (String × ℚ) :=
  [("USD", 1.0), ("EUR", 0.92), ("GBP", 0.79), ("JPY", 149.50), ("AUD", 1.55),
   ("CAD", 1.35), ("CHF", 0.88), ("CNY", 7.25), ("HKD", 7.80), ("INR", 83.00),
   ("NZD", 1.68), ("SEK", 10.50), ("NOK", 10.60), ("DKK", 6.85), ("SGD", 1.35),
   ("KRW", 1330.00), ("MXN", 17.00), ("BRL", 5.20), ("ZAR", 18.20), ("TRY", 33.00),
   ("PLN", 4.05), ("THB", 35.50), ("TWD", 32.00), ("IDR", 15400.0), ("MYR", 4.70),
   ("PHP", 56.50), ("ILS", 3.70), ("AED", 3.6725), ("SAR", 3.75), ("RUB", 92.00)]

/-- Dictionary lookup in the exchange-rate table. -/
def EXCHANGE_RATES (code : String) : Option ℚ :=
  (EXCHANGE_RATES_LIST.find? (fun kv => kv.1 == code)).map Prod.snd

/-- Currency display symbols (kpp.py:103-110). -/
def CURRENCY_SYMBOLS_LIST : List (String × String) :=
  [("USD", "$"), ("EUR", "€"), ("GBP", "£"), ("JPY", "¥"), ("AUD", "A$"),
   ("CAD", "C$"), ("CHF", "CHF"), ("CNY", "¥"), ("HKD", "HK$"), ("INR", "₹"),
   ("NZD", "NZ$"), ("SEK", "kr"), ("NOK", "kr"), ("DKK", "kr"), ("SGD", "S$"),
   ("KRW", "₩"), ("MXN", "MX$"), ("BRL", "R$"), ("ZAR", "R"), ("TRY", "₺"),
   ("PLN", "zł"), ("THB", "฿"), ("TWD", "NT$"), ("IDR", "Rp"), ("MYR", "RM"),
   ("PHP", "₱"), ("ILS", "₪"), ("AED", "د.إ"), ("SAR", "ر.س"), ("RUB", "₽")]

/-- Model of Python's `str.upper()`: character-wise uppercase (currency
codes are ASCII, so this matches `str.upper` exactly). -/
def pyUpper (s : String) : String := String.mk (s.data.map Char.toUpper)

/-- Model of `currency_symbol` (kpp.py:112-113): `CURRENCY_SYMBOLS.get(code.upper(), "$")`. -/
def currency_symbol (code : String) : String :=
  ((CURRENCY_SYMBOLS_LIST.find? (fun kv => kv.1 == pyUpper code)).map Prod.snd).getD "$"

/-- The rate used by the projection: `EXCHANGE_RATES.get(currency.upper(), 1.0)`
(kpp.py:341), with the mutable global dictionary passed explicitly. -/
def proj_rate (rates : String → Option ℚ) (currency : String) : ℚ :=
  (rates (pyUpper currency)).getD 1

/-- Row color relative to the rounded current price (kpp.py:342-344). -/
def colorOf (anchor p : ℚ) : String :=
  if p < anchor then "red" else if p = anchor then "black" else "green"

/-- One projection row for base USD price `p` (kpp.py:342-347): display price
`round(p * rate, 2)`, portfolio `kas_amount * p * rate`, market cap
`circ_supply * p * rate`, color vs. the rounded current price. -/
def projection_row (rate kas_amount circ_supply anchor : ℚ) (p : ℚ) : Row :=
  { disp := pyRound2 (p * rate)
    usd := p
    portfolio := kas_amount * p * rate
    mcap := circ_supply * p * rate
    color := colorOf anchor p }

/-- The sort key used by `dedupe` (kpp.py:354): lexicographic on
`(displayPrice, usdPrice)`. -/
def rowLe (a b : Row) : Prop :=
  a.disp < b.disp ∨ (a.disp = b.disp ∧ a.usd ≤ b.usd)

instance rowLe.decRel (a b : Row) : Decidable (rowLe a b) := by
  unfold rowLe
  infer_instance

instance rowLe.total : IsTotal Row rowLe where
  total a b := by
    unfold rowLe
    rcases lt_trichotomy a.disp b.disp with h | h | h
    · exact Or.inl (Or.inl h)
    · rcases le_total a.usd b.usd with hu | hu
      · exact Or.inl (Or.inr ⟨h, hu⟩)
      · exact Or.inr (Or.inr ⟨h.symm, hu⟩)
    · exact Or.inr (Or.inl h)

instance rowLe.trans : IsTrans Row rowLe where
  trans a b c hab hbc := by
    unfold rowLe at *
    rcases hab with h1 | ⟨e1, u1⟩ <;> rcases hbc with h2 | ⟨e2, u2⟩
    · exact Or.inl (lt_trans h1 h2)
    · exact Or.inl (lt_of_lt_of_eq h1 e2)
    · exact Or.inl (lt_of_eq_of_lt e1 h2)
    · exact Or.inr ⟨e1.trans e2, le_trans u1 u2⟩

/-- The seen-set filter inside `dedupe` (kpp.py:355-358): keep the first row
for each display price, in list order. -/
def keepFirst (seen : List ℚ) : List Row → List Row
  | [] => []
  | r :: rest =>
      if r.disp ∈ seen then keepFirst seen rest
      else r :: keepFirst (r.disp :: seen) rest

/-- Model of the local `dedupe` (kpp.py:352-359): sort rows by
`(displayPrice, usdPrice)` and keep the first row of each display price. -/
def dedupe (l : List Row) : List Row :=
  keepFirst [] (l.insertionSort rowLe)

/-- Model of `if red and red[-1][0] == black_disp: red.pop()` (kpp.py:363). -/
def popLastEq (bd : ℚ) (l : List Row) : List Row :=
  match l.getLast? with
  | some r => if r.disp = bd then l.dropLast else l
  | none => l

/-- Model of `if green and green[0][0] == black_disp: green.pop(0)` (kpp.py:365). -/
def popHeadEq (bd : ℚ) (l : List Row) : List Row :=
  match l with
  | [] => []
  | g :: rest => if g.disp = bd then rest else g :: rest

/-- Model of Python's `list.index`: index of the first element satisfying
`q`, or `none` where `list.index` raises `ValueError`. -/
def indexOfFirst {α : Type} (q : α → Bool) : List α → Option ℕ
  | [] => none
  | r :: rest => if q r then some 0 else (indexOfFirst q rest).map (· + 1)

/-- The parallel row arrays of `generate_portfolio_projection`
(kpp.py:339-347) zipped into rows: for every generated USD interval price,
the display price, portfolio value (`kas_amount * p * rate`), market cap
(`circ_supply_b * 1e9 * p * rate`) and color vs. `round(current_price_usd, 2)`. -/
def proj_rows (gs : GeomFn) (rates : String → Option ℚ)
    (kas_amount current_price_usd circ_supply_b : ℚ) (currency : String) : List Row :=
  (generate_price_intervals gs current_price_usd).map
    (projection_row (proj_rate rates currency) kas_amount
      (circ_supply_b * 1000000000) (pyRound2 current_price_usd))

/-- Model of `generate_portfolio_projection` (kpp.py:337-376).  Returns the
projection table (the `DataFrame` rows, in order) and the display symbol, or
`none` where the Python raises `ValueError` (no `black` row found by
`colors.index("black")`, kpp.py:349).  In the non-USD branch, the rows below
and above the black index are deduplicated, the boundary rows colliding with
the black display price are popped, and the three pieces are reassembled. -/
def generate_portfolio_projection (gs : GeomFn) (rates : String → Option ℚ)
    (kas_amount current_price_usd circ_supply_b : ℚ) (currency : String) :
    Option (List Row × String) :=
  match indexOfFirst (fun r => r.color == "black")
      (proj_rows gs rates kas_amount current_price_usd circ_supply_b currency) with
  | none => none
  | some black_idx =>
      let rows := proj_rows gs rates kas_amount current_price_usd circ_supply_b currency
      let black_row := rows.getD black_idx default
      if pyUpper currency ≠ "USD" then
        let red := popLastEq black_row.disp (dedupe (rows.take black_idx))
        let green := popHeadEq black_row.disp (dedupe (rows.drop (black_idx + 1)))
        some (red ++ black_row :: green, currency_symbol currency)
      else
        some (rows, currency_symbol currency)

theorem rowLe_refl (a : Row) : rowLe a a := Or.inr ⟨rfl, le_rfl⟩

theorem keepFirst_sublist (seen : List ℚ) (l : List Row) : List.Sublist (keepFirst seen l) l := by
  induction l generalizing seen with
  | nil => simp [keepFirst]
  | cons r rest ih =>
    by_cases h : r.disp ∈ seen
    · simp only [keepFirst, if_pos h]
      exact (ih seen).cons r
    · simp only [keepFirst, if_neg h]
      exact (ih _).cons₂ r

theorem keepFirst_disp_not_mem {seen : List ℚ} {l : List Row} {r : Row}
    (hr : r ∈ keepFirst seen l) : r.disp ∉ seen := by
  induction l generalizing seen with
  | nil => simp [keepFirst] at hr
  | cons a rest ih =>
    by_cases h : a.disp ∈ seen
    · simp only [keepFirst, if_pos h] at hr
      exact ih hr
    · simp only [keepFirst, if_neg h] at hr
      rcases List.mem_cons.1 hr with rfl | hr
      · exact h
      · have h2 := ih hr
        intro hc
        exact h2 (List.mem_cons_of_mem _ hc)

theorem keepFirst_pairwise_ne (seen : List ℚ) (l : List Row) :
    (keepFirst seen l).Pairwise (fun a b => a.disp ≠ b.disp) := by
  induction l generalizing seen with
  | nil => simp [keepFirst]
  | cons a rest ih =>
    by_cases h : a.disp ∈ seen
    · simp only [keepFirst, if_pos h]
      exact ih seen
    · simp only [keepFirst, if_neg h]
      refine List.Pairwise.cons ?_ (ih _)
      intro b hb hc
      exact (keepFirst_disp_not_mem hb) (List.mem_cons.2 (Or.inl hc.symm))

/-- On a list sorted by `(displayPrice, usdPrice)`, a row kept by the
seen-set filter is `rowLe`-minimal among all rows sharing its display
price: the smaller underlying USD price wins a collision. -/
theorem keepFirst_min {l : List Row} (hs : l.Pairwise rowLe) :
    ∀ seen, ∀ r ∈ keepFirst seen l, ∀ r' ∈ l, r'.disp = r.disp → rowLe r r' := by
  induction l with
  | nil =>
    intro seen r hr
    simp [keepFirst] at hr
  | cons a rest ih =>
    rcases List.pairwise_cons.1 hs with ⟨ha, ht⟩
    intro seen r hr r' hr' hdisp
    by_cases h : a.disp ∈ seen
    · simp only [keepFirst, if_pos h] at hr
      rcases List.mem_cons.1 hr' with rfl | hr'
      · have hnm := keepFirst_disp_not_mem hr
        rw [hdisp] at h
        exact absurd h hnm
      · exact ih ht seen r hr r' hr' hdisp
    · simp only [keepFirst, if_neg h] at hr
      rcases List.mem_cons.1 hr with rfl | hr
      · rcases List.mem_cons.1 hr' with rfl | hr'
        · exact rowLe_refl _
        · exact ha r' hr'
      · rcases List.mem_cons.1 hr' with rfl | hr'
        · have hnm := keepFirst_disp_not_mem hr
          exact absurd (List.mem_cons.2 (Or.inl hdisp.symm)) hnm
        · exact ih ht _ r hr r' hr' hdisp

theorem dedupe_mem {l : List Row} {r : Row} (hr : r ∈ dedupe l) : r ∈ l := by
  have h1 := (keepFirst_sublist [] (l.insertionSort rowLe)).subset hr
  exact (List.perm_insertionSort rowLe l).subset h1

theorem dedupe_pairwise_rowLe (l : List Row) : (dedupe l).Pairwise rowLe :=
  List.Pairwise.sublist (keepFirst_sublist [] _) (List.sorted_insertionSort rowLe l)

theorem dedupe_disp_sorted (l : List Row) :
    ((dedupe l).map Row.disp).Pairwise (· < ·) := by
  rw [List.pairwise_map]
  have h1 := dedupe_pairwise_rowLe l
  have h2 := keepFirst_pairwise_ne [] (l.insertionSort rowLe)
  refine (h1.and h2).imp ?_
  rintro a b ⟨hab, hne⟩
  rcases hab with h | ⟨he, _⟩
  · exact h
  · exact absurd he hne

/-- After `dedupe`, every retained row has the smallest underlying USD price
among the input rows sharing its display price. -/
theorem dedupe_min {l : List Row} {r : Row} (hr : r ∈ dedupe l) :
    ∀ r' ∈ l, r'.disp = r.disp → rowLe r r' := by
  intro r' hr' hd
  exact keepFirst_min (List.sorted_insertionSort rowLe l) [] r hr r'
    ((List.perm_insertionSort rowLe l).mem_iff.2 hr') hd

theorem getLast?_decomp {α : Type} :
    ∀ (l : List α) (x : α), l.getLast? = some x → l = l.dropLast ++ [x] := by
  intro l
  induction l with
  | nil =>
    intro x h
    simp at h
  | cons a t ih =>
    intro x h
    cases t with
    | nil =>
      simp only [List.getLast?_singleton, Option.some.injEq] at h
      simp [h]
    | cons b t' =>
      rw [List.getLast?_cons_cons] at h
      have h2 := ih x h
      calc a :: b :: t' = a :: ((b :: t').dropLast ++ [x]) := by rw [← h2]
        _ = (a :: b :: t').dropLast ++ [x] := by simp

theorem getLast?_mem {α : Type} {l : List α} {x : α} (h : l.getLast? = some x) :
    x ∈ l := by
  rw [getLast?_decomp l x h]
  simp

theorem head?_mem {α : Type} {l : List α} {x : α} (h : l.head? = some x) : x ∈ l := by
  cases l with
  | nil => simp at h
  | cons a t =>
    simp only [List.head?_cons, Option.some.injEq] at h
    rw [← h]
    exact List.mem_cons_self a t

theorem popLastEq_sublist (bd : ℚ) (l : List Row) : List.Sublist (popLastEq bd l) l := by
  unfold popLastEq
  cases h : l.getLast? with
  | none => exact List.Sublist.refl l
  | some r =>
    dsimp only
    split_ifs
    · exact List.dropLast_sublist l
    · exact List.Sublist.refl l

theorem popHeadEq_sublist (bd : ℚ) (l : List Row) : List.Sublist (popHeadEq bd l) l := by
  cases l with
  | nil => exact List.Sublist.refl []
  | cons g rest =>
    simp only [popHeadEq]
    split_ifs
    · exact List.sublist_cons_self g rest
    · exact List.Sublist.refl _

/-- If every display price in a strictly sorted section is at most the
anchor's, then after the pop-last-if-equal step every display price is
strictly below it. -/
theorem popLastEq_lt {bd : ℚ} {l : List Row}
    (hs : (l.map Row.disp).Pairwise (· < ·)) (hub : ∀ r ∈ l, r.disp ≤ bd) :
    ∀ r ∈ popLastEq bd l, r.disp < bd := by
  unfold popLastEq
  cases h : l.getLast? with
  | none =>
    intro r hr
    have hl : l = [] := by
      cases l with
      | nil => rfl
      | cons a t => simp [List.getLast?_eq_getLast] at h
    rw [hl] at hr
    cases hr
  | some x =>
    dsimp only
    have hdec := getLast?_decomp l x h
    have hxbd : x.disp ≤ bd := hub x (getLast?_mem h)
    have hcross : ∀ r ∈ l.dropLast, r.disp < x.disp := by
      intro r hr
      rw [hdec, List.map_append] at hs
      have h3 := (List.pairwise_append.1 hs).2.2
      exact h3 r.disp (List.mem_map_of_mem _ hr) x.disp (by simp)
    split_ifs with he
    · intro r hr
      rw [← he]
      exact hcross r hr
    · intro r hr
      rw [hdec] at hr
      rcases List.mem_append.1 hr with hr | hr
      · exact lt_of_lt_of_le (hcross r hr) hxbd
      · rw [List.mem_singleton.1 hr]
        exact lt_of_le_of_ne hxbd he

/-- After the pop-last-if-equal step the last display price differs from the
anchor's (it is either unchanged and already different, or the new last lies
strictly below the removed one). -/
theorem popLastEq_getLast_ne {bd : ℚ} {l : List Row}
    (hs : (l.map Row.disp).Pairwise (· < ·)) :
    ∀ r : Row, (popLastEq bd l).getLast? = some r → r.disp ≠ bd := by
  unfold popLastEq
  cases h : l.getLast? with
  | none =>
    intro r hr
    rw [h] at hr
    cases hr
  | some x =>
    dsimp only
    split_ifs with he
    · intro r hr
      have hrm : r ∈ l.dropLast := getLast?_mem hr
      have hdec := getLast?_decomp l x h
      rw [hdec, List.map_append] at hs
      have h3 := (List.pairwise_append.1 hs).2.2
      have hlt : r.disp < x.disp := h3 r.disp (List.mem_map_of_mem _ hrm) x.disp (by simp)
      rw [he] at hlt
      exact ne_of_lt hlt
    · intro r hr
      rw [h] at hr
      have hxr : x = r := Option.some.inj hr
      rw [← hxr]
      exact he

/-- If every display price in a strictly sorted section is at least the
anchor's, then after the pop-head-if-equal step every display price is
strictly above it. -/
theorem popHeadEq_gt {bd : ℚ} {l : List Row}
    (hs : (l.map Row.disp).Pairwise (· < ·)) (hlb : ∀ r ∈ l, bd ≤ r.disp) :
    ∀ r ∈ popHeadEq bd l, bd < r.disp := by
  cases l with
  | nil =>
    intro r hr
    cases hr
  | cons g rest =>
    simp only [popHeadEq]
    rw [List.map_cons] at hs
    have hcross : ∀ r ∈ rest, g.disp < r.disp := by
      intro r hr
      exact (List.pairwise_cons.1 hs).1 r.disp (List.mem_map_of_mem _ hr)
    split_ifs with he
    · intro r hr
      rw [← he]
      exact hcross r hr
    · intro r hr
      rcases List.mem_cons.1 hr with rfl | hr
      · exact lt_of_le_of_ne (hlb r (List.mem_cons_self _ _)) (Ne.symm he)
      · exact lt_of_le_of_lt (hlb g (List.mem_cons_self _ _)) (hcross r hr)

/-- After the pop-head-if-equal step the first display price differs from the
anchor's. -/
theorem popHeadEq_head_ne {bd : ℚ} {l : List Row}
    (hs : (l.map Row.disp).Pairwise (· < ·)) :
    ∀ r : Row, (popHeadEq bd l).head? = some r → r.disp ≠ bd := by
  cases l with
  | nil =>
    intro r hr
    cases hr
  | cons g rest =>
    simp only [popHeadEq]
    rw [List.map_cons] at hs
    split_ifs with he
    · intro r hr
      have hrm : r ∈ rest := head?_mem hr
      have hlt : g.disp < r.disp := (List.pairwise_cons.1 hs).1 r.disp (List.mem_map_of_mem _ hrm)
      rw [he] at hlt
      exact (ne_of_lt hlt).symm
    · intro r hr
      simp only [List.head?_cons, Option.some.injEq] at hr
      rw [← hr]
      exact he

theorem indexOfFirst_eq_none {α : Type} {q : α → Bool} {l : List α}
    (h : ∀ a ∈ l, q a = false) : indexOfFirst q l = none := by
  induction l with
  | nil => rfl
  | cons a t ih =>
    simp only [indexOfFirst]
    rw [h a (List.mem_cons_self a t)]
    simp only [Bool.false_eq_true, if_false]
    rw [ih (fun b hb => h b (List.mem_cons_of_mem a hb))]
    rfl

theorem indexOfFirst_some_exists {α : Type} {q : α → Bool} {l : List α} {i : ℕ}
    (h : indexOfFirst q l = some i) : ∃ a ∈ l, q a = true := by
  induction l generalizing i with
  | nil => simp [indexOfFirst] at h
  | cons a t ih =>
    by_cases hq : q a
    · exact ⟨a, List.mem_cons_self a t, hq⟩
    · simp only [indexOfFirst, hq, Bool.false_eq_true, if_false] at h
      cases ho : indexOfFirst q t with
      | none =>
        rw [ho] at h
        cases h
      | some j =>
        obtain ⟨b, hb, hqb⟩ := ih ho
        exact ⟨b, List.mem_cons_of_mem a hb, hqb⟩

theorem indexOfFirst_append {α : Type} {q : α → Bool} {A : List α} {b : α} (B : List α)
    (hA : ∀ a ∈ A, q a = false) (hb : q b = true) :
    indexOfFirst q (A ++ b :: B) = some A.length := by
  induction A with
  | nil =>
    simp only [List.nil_append, indexOfFirst, hb, if_true, List.length_nil]
  | cons a t ih =>
    have ht := ih (fun x hx => hA x (List.mem_cons_of_mem a hx))
    simp only [List.cons_append, indexOfFirst, hA a (List.mem_cons_self a t),
      Bool.false_eq_true, if_false, List.append_eq, ht, List.length_cons]
    rfl

theorem take_length_append {α : Type} (A : List α) (b : α) (B : List α) :
    (A ++ b :: B).take A.length = A := by
  induction A with
  | nil => simp
  | cons a t ih => simp [ih]

theorem getD_length_append {α : Type} [Inhabited α] (A : List α) (b : α) (B : List α) :
    (A ++ b :: B).getD A.length default = b := by
  induction A with
  | nil => simp
  | cons a t ih =>
    show (a :: (t ++ b :: B)).getD (t.length + 1) default = b
    rw [List.getD_cons_succ]
    exact ih

theorem drop_length_append {α : Type} (A : List α) (b : α) (B : List α) :
    (A ++ b :: B).drop (A.length + 1) = B := by
  induction A with
  | nil => simp
  | cons a t ih =>
    show (a :: (t ++ b :: B)).drop (t.length + 1 + 1) = B
    rw [List.drop_succ_cons]
    exact ih

theorem colorOf_of_lt {a p : ℚ} (h : p < a) : colorOf a p = "red" := by
  unfold colorOf
  rw [if_pos h]

theorem colorOf_self (a : ℚ) : colorOf a a = "black" := by
  unfold colorOf
  rw [if_neg (lt_irrefl a), if_pos rfl]

theorem colorOf_of_gt {a p : ℚ} (h : a < p) : colorOf a p = "green" := by
  unfold colorOf
  rw [if_neg (by linarith), if_neg (by intro hc; rw [hc] at h; exact lt_irrefl a h)]

theorem colorOf_eq_black_iff {a p : ℚ} : colorOf a p = "black" ↔ p = a := by
  constructor
  · intro hc
    by_contra hne
    rcases lt_or_gt_of_ne hne with h | h
    · rw [colorOf_of_lt h] at hc
      exact absurd hc (by decide)
    · rw [colorOf_of_gt h] at hc
      exact absurd hc (by decide)
  · intro hp
    rw [hp]
    exact colorOf_self a

theorem EXCHANGE_RATES_LIST_pos : ∀ kv ∈ EXCHANGE_RATES_LIST, 0 < kv.2 := by
  intro kv hkv
  fin_cases hkv <;> norm_num

theorem EXCHANGE_RATES_pos {c : String} {q : ℚ} (h : EXCHANGE_RATES c = some q) :
    0 < q := by
  unfold EXCHANGE_RATES at h
  cases hf : EXCHANGE_RATES_LIST.find? (fun kv => kv.1 == c) with
  | none =>
    rw [hf] at h
    cases h
  | some kv =>
    rw [hf] at h
    simp only [Option.map_some'] at h
    have hmem := List.mem_of_find?_eq_some hf
    have := EXCHANGE_RATES_LIST_pos kv hmem
    rw [← Option.some.inj h]
    exact this

/-- Every rate the projection can look up in the shipped table is positive
(unknown currencies fall back to rate 1). -/
theorem proj_rate_pos (c : String) : 0 < proj_rate EXCHANGE_RATES c := by
  unfold proj_rate
  cases h : EXCHANGE_RATES (pyUpper c) with
  | none => norm_num
  | some q =>
    simp only [Option.getD_some]
    exact EXCHANGE_RATES_pos h

/-- When the current price rounds to at least one cent, the anchor used for
row coloring coincides with the interval generator's clamped anchor. -/
theorem pyRound2_max_eq {cp : ℚ} (h : 1/100 ≤ pyRound2 cp) :
    pyRound2 (max cp (1/100)) = pyRound2 cp := by
  rcases le_total (1/100 : ℚ) cp with hc | hc
  · rw [max_eq_left hc]
  · rw [max_eq_right hc, pyRound2_cent]
    have h2 := pyRound2_mono hc
    rw [pyRound2_cent] at h2
    exact le_antisymm h h2

theorem anchor_mem_of_ge {gs : GeomFn} {cp : ℚ} (h : 1/100 ≤ pyRound2 cp) :
    pyRound2 cp ∈ generate_price_intervals gs cp := by
  have hm := anchor_mem_generate_price_intervals gs cp (1/100) 1000
  rw [pyRound2_max_eq h] at hm
  exact hm

/-- The interval list splits around the anchor: strictly smaller prices
before it, strictly larger after. -/
theorem intervals_split {gs : GeomFn} {cp : ℚ}
    (hmem : pyRound2 cp ∈ generate_price_intervals gs cp) :
    ∃ L R, generate_price_intervals gs cp = L ++ pyRound2 cp :: R ∧
      (∀ p ∈ L, p < pyRound2 cp) ∧ (∀ p ∈ R, pyRound2 cp < p) := by
  obtain ⟨L, R, hsplit⟩ := List.append_of_mem hmem
  have hs := generate_price_intervals_sorted gs cp (1/100) 1000
  rw [hsplit] at hs
  rcases List.pairwise_append.1 hs with ⟨_, hR, hcross⟩
  refine ⟨L, R, hsplit, ?_, ?_⟩
  · intro p hp
    exact hcross p hp _ (List.mem_cons_self _ _)
  · intro p hp
    exact (List.pairwise_cons.1 hR).1 p hp

theorem proj_eq_none {gs : GeomFn} {rates : String → Option ℚ}
    {kas cp supply : ℚ} {currency : String}
    (h : ∀ p ∈ generate_price_intervals gs cp, colorOf (pyRound2 cp) p ≠ "black") :
    generate_portfolio_projection gs rates kas cp supply currency = none := by
  have hidx : indexOfFirst (fun r => r.color == "black")
      (proj_rows gs rates kas cp supply currency) = none := by
    apply indexOfFirst_eq_none
    intro r hr
    simp only [proj_rows, List.mem_map] at hr
    obtain ⟨p, hp, rfl⟩ := hr
    simp only [projection_row]
    exact beq_eq_false_iff_ne.2 (h p hp)
  unfold generate_portfolio_projection
  rw [hidx]

theorem proj_some_anchor_mem {gs : GeomFn} {rates : String → Option ℚ}
    {kas cp supply : ℚ} {currency : String} {x : List Row × String}
    (h : generate_portfolio_projection gs rates kas cp supply currency = some x) :
    pyRound2 cp ∈ generate_price_intervals gs cp := by
  cases hidx : indexOfFirst (fun r => r.color == "black")
      (proj_rows gs rates kas cp supply currency) with
  | none =>
    unfold generate_portfolio_projection at h
    rw [hidx] at h
    cases h
  | some bi =>
    obtain ⟨r, hr, hq⟩ := indexOfFirst_some_exists hidx
    simp only [proj_rows, List.mem_map] at hr
    obtain ⟨p, hp, rfl⟩ := hr
    simp only [projection_row] at hq
    have hb : colorOf (pyRound2 cp) p = "black" := eq_of_beq hq
    rw [colorOf_eq_black_iff] at hb
    rw [← hb]
    exact hp

/-- Proofs manipulate the non-USD branch output through this abbreviation:
the deduplicated below-section minus a trailing collision with the anchor's
display price, then the anchor row, then the deduplicated above-section minus
a leading collision. -/
def assembleNonUSD (f : ℚ → Row) (anchor : ℚ) (L R : List ℚ) : List Row :=
  popLastEq (f anchor).disp (dedupe (L.map f)) ++
    f anchor :: popHeadEq (f anchor).disp (dedupe (R.map f))

/-- Structure of a successful non-USD projection: the interval list splits
around the anchor, and the output table is the reassembly of the popped,
deduplicated sections. -/
theorem proj_eq_nonUSD (gs : GeomFn) (rates : String → Option ℚ)
    (kas cp supply : ℚ) (currency : String)
    (hmem : pyRound2 cp ∈ generate_price_intervals gs cp)
    (hc : pyUpper currency ≠ "USD") :
    ∃ L R,
      generate_price_intervals gs cp = L ++ pyRound2 cp :: R ∧
      (∀ p ∈ L, p < pyRound2 cp) ∧ (∀ p ∈ R, pyRound2 cp < p) ∧
      generate_portfolio_projection gs rates kas cp supply currency =
        some (assembleNonUSD
          (projection_row (proj_rate rates currency) kas (supply * 1000000000) (pyRound2 cp))
          (pyRound2 cp) L R, currency_symbol currency) := by
  obtain ⟨L, R, hsplit, hL, hR⟩ := intervals_split hmem
  refine ⟨L, R, hsplit, hL, hR, ?_⟩
  set f := projection_row (proj_rate rates currency) kas (supply * 1000000000) (pyRound2 cp)
    with hf
  have hrows : proj_rows gs rates kas cp supply currency =
      L.map f ++ f (pyRound2 cp) :: R.map f := by
    unfold proj_rows
    rw [hsplit, List.map_append, List.map_cons]
  have hqL : ∀ r ∈ L.map f, (r.color == "black") = false := by
    intro r hr
    rw [List.mem_map] at hr
    obtain ⟨p, hp, rfl⟩ := hr
    have hcol : (f p).color = "red" := by
      rw [hf]
      simp only [projection_row]
      exact colorOf_of_lt (hL p hp)
    rw [hcol]
    decide
  have hqb : ((f (pyRound2 cp)).color == "black") = true := by
    have hcol : (f (pyRound2 cp)).color = "black" := by
      rw [hf]
      simp only [projection_row]
      exact colorOf_self _
    rw [hcol]
    decide
  have hidx : indexOfFirst (fun r => r.color == "black")
      (proj_rows gs rates kas cp supply currency) = some (L.map f).length := by
    rw [hrows]
    exact indexOfFirst_append _ hqL hqb
  unfold generate_portfolio_projection
  rw [hidx]
  simp only
  rw [if_pos hc]
  rw [hrows, getD_length_append, take_length_append, drop_length_append]
  rfl

/-- Structure of a successful USD projection: the table is exactly the
interval list lifted to rows — no dedup pass, no pops, no reordering. -/
theorem proj_eq_USD (gs : GeomFn) (rates : String → Option ℚ)
    (kas cp supply : ℚ) (currency : String)
    (hmem : pyRound2 cp ∈ generate_price_intervals gs cp)
    (hc : pyUpper currency = "USD") :
    generate_portfolio_projection gs rates kas cp supply currency =
      some (proj_rows gs rates kas cp supply currency, currency_symbol currency) := by
  obtain ⟨L, R, hsplit, hL, hR⟩ := intervals_split hmem
  set f := projection_row (proj_rate rates currency) kas (supply * 1000000000) (pyRound2 cp)
    with hf
  have hrows : proj_rows gs rates kas cp supply currency =
      L.map f ++ f (pyRound2 cp) :: R.map f := by
    unfold proj_rows
    rw [hsplit, List.map_append, List.map_cons]
  have hqL : ∀ r ∈ L.map f, (r.color == "black") = false := by
    intro r hr
    rw [List.mem_map] at hr
    obtain ⟨p, hp, rfl⟩ := hr
    have hcol : (f p).color = "red" := by
      rw [hf]
      simp only [projection_row]
      exact colorOf_of_lt (hL p hp)
    rw [hcol]
    decide
  have hqb : ((f (pyRound2 cp)).color == "black") = true := by
    have hcol : (f (pyRound2 cp)).color = "black" := by
      rw [hf]
      simp only [projection_row]
      exact colorOf_self _
    rw [hcol]
    decide
  have hidx : indexOfFirst (fun r => r.color == "black")
      (proj_rows gs rates kas cp supply currency) = some (L.map f).length := by
    rw [hrows]
    exact indexOfFirst_append _ hqL hqb
  unfold generate_portfolio_projection
  rw [hidx]
  simp only
  rw [if_neg (by rw [hc]; exact fun hne => hne rfl)]

theorem colorOf_eq_red_iff {a p : ℚ} : colorOf a p = "red" ↔ p < a := by
  constructor
  · intro hc
    by_contra hge
    rcases eq_or_lt_of_le (not_lt.1 hge) with h | h
    · rw [← h, colorOf_self] at hc
      exact absurd hc (by decide)
    · rw [colorOf_of_gt h] at hc
      exact absurd hc (by decide)
  · exact colorOf_of_lt

theorem colorOf_eq_green_iff {a p : ℚ} : colorOf a p = "green" ↔ a < p := by
  constructor
  · intro hc
    by_contra hge
    rcases eq_or_lt_of_le (not_lt.1 hge) with h | h
    · rw [h, colorOf_self] at hc
      exact absurd hc (by decide)
    · rw [colorOf_of_lt h] at hc
      exact absurd hc (by decide)
  · exact colorOf_of_gt

theorem EXCHANGE_RATES_usd : (EXCHANGE_RATES "USD").getD 1 = 1 := by
  simp only [EXCHANGE_RATES, EXCHANGE_RATES_LIST, List.find?]
  norm_num

/-- The anchor row is always present in the reassembled non-USD table. -/
theorem assembleNonUSD_anchor_mem (f : ℚ → Row) (anchor : ℚ) (L R : List ℚ) :
    f anchor ∈ assembleNonUSD f anchor L R := by
  unfold assembleNonUSD
  exact List.mem_append_right _ (List.mem_cons_self _ _)

/-- With a positive rate and the sections strictly below/above the anchor,
the reassembled non-USD table is strictly ascending in display price. -/
theorem assembleNonUSD_disp_sorted {rate kas circ anchor : ℚ} {L R : List ℚ}
    (hrate : 0 < rate) (hL : ∀ p ∈ L, p < anchor) (hR : ∀ p ∈ R, anchor < p) :
    ((assembleNonUSD (projection_row rate kas circ anchor) anchor L R).map Row.disp).Pairwise
      (· < ·) := by
  set f := projection_row rate kas circ anchor with hf
  have hredUB : ∀ r ∈ dedupe (L.map f), r.disp ≤ (f anchor).disp := by
    intro r hr
    obtain ⟨p, hp, rfl⟩ := List.mem_map.1 (dedupe_mem hr)
    show (f p).disp ≤ (f anchor).disp
    rw [hf]
    simp only [projection_row]
    exact pyRound2_mono (mul_le_mul_of_nonneg_right (le_of_lt (hL p hp)) (le_of_lt hrate))
  have hgreenLB : ∀ r ∈ dedupe (R.map f), (f anchor).disp ≤ r.disp := by
    intro r hr
    obtain ⟨p, hp, rfl⟩ := List.mem_map.1 (dedupe_mem hr)
    show (f anchor).disp ≤ (f p).disp
    rw [hf]
    simp only [projection_row]
    exact pyRound2_mono (mul_le_mul_of_nonneg_right (le_of_lt (hR p hp)) (le_of_lt hrate))
  have hredS := dedupe_disp_sorted (L.map f)
  have hgreenS := dedupe_disp_sorted (R.map f)
  have hred' := popLastEq_lt hredS hredUB
  have hgreen' := popHeadEq_gt hgreenS hgreenLB
  have hredS' : ((popLastEq (f anchor).disp (dedupe (L.map f))).map Row.disp).Pairwise (· < ·) :=
    List.Pairwise.sublist (List.Sublist.map _ (popLastEq_sublist _ _)) hredS
  have hgreenS' : ((popHeadEq (f anchor).disp (dedupe (R.map f))).map Row.disp).Pairwise (· < ·) :=
    List.Pairwise.sublist (List.Sublist.map _ (popHeadEq_sublist _ _)) hgreenS
  unfold assembleNonUSD
  rw [List.map_append, List.map_cons, List.pairwise_append]
  refine ⟨hredS', ?_, ?_⟩
  · rw [List.pairwise_cons]
    constructor
    · intro d hd
      obtain ⟨r, hr, rfl⟩ := List.mem_map.1 hd
      exact hgreen' r hr
    · exact hgreenS'
  · intro d hd e he
    obtain ⟨r, hr, rfl⟩ := List.mem_map.1 hd
    rcases List.mem_cons.1 he with rfl | he
    · exact hred' r hr
    · obtain ⟨r2, hr2, rfl⟩ := List.mem_map.1 he
      exact lt_trans (hred' r hr) (hgreen' r2 hr2)

/-- For any rate whatsoever, no two adjacent rows of the reassembled non-USD
table share a display price. -/
theorem assembleNonUSD_chain_ne (f : ℚ → Row) (anchor : ℚ) (L R : List ℚ) :
    ((assembleNonUSD f anchor L R).map Row.disp).Chain' (· ≠ ·) := by
  have hredS := dedupe_disp_sorted (L.map f)
  have hgreenS := dedupe_disp_sorted (R.map f)
  have hredS' : ((popLastEq (f anchor).disp (dedupe (L.map f))).map Row.disp).Pairwise (· < ·) :=
    List.Pairwise.sublist (List.Sublist.map _ (popLastEq_sublist _ _)) hredS
  have hgreenS' : ((popHeadEq (f anchor).disp (dedupe (R.map f))).map Row.disp).Pairwise (· < ·) :=
    List.Pairwise.sublist (List.Sublist.map _ (popHeadEq_sublist _ _)) hgreenS
  unfold assembleNonUSD
  rw [List.map_append, List.map_cons, List.chain'_append]
  refine ⟨(hredS'.imp ne_of_lt).chain', ?_, ?_⟩
  · rw [List.chain'_cons']
    constructor
    · intro y hy
      rw [List.head?_map] at hy
      rw [Option.mem_def, Option.map_eq_some'] at hy
      obtain ⟨r, hr, rfl⟩ := hy
      exact (popHeadEq_head_ne hgreenS r hr).symm
    · exact (hgreenS'.imp ne_of_lt).chain'
  · intro x hx y hy
    rw [List.getLast?_map] at hx
    rw [Option.mem_def, Option.map_eq_some'] at hx
    obtain ⟨r, hr, rfl⟩ := hx
    have hy2 : y = (f anchor).disp := by
      simp only [List.head?_cons, Option.mem_def, Option.some.injEq] at hy
      exact hy.symm
    rw [hy2]
    exact popLastEq_getLast_ne hredS r hr

/-- Exactly one row of the reassembled non-USD table is colored black. -/
theorem assembleNonUSD_countP_black {rate kas circ anchor : ℚ} {L R : List ℚ}
    (hL : ∀ p ∈ L, p < anchor) (hR : ∀ p ∈ R, anchor < p) :
    (assembleNonUSD (projection_row rate kas circ anchor) anchor L R).countP
      (fun r => r.color == "black") = 1 := by
  set f := projection_row rate kas circ anchor with hf
  have hredC : ∀ r ∈ popLastEq (f anchor).disp (dedupe (L.map f)),
      (r.color == "black") = false := by
    intro r hr
    obtain ⟨p, hp, rfl⟩ := List.mem_map.1 (dedupe_mem ((popLastEq_sublist _ _).subset hr))
    have hcol : (f p).color = "red" := by
      rw [hf]
      simp only [projection_row]
      exact colorOf_of_lt (hL p hp)
    rw [hcol]
    decide
  have hgreenC : ∀ r ∈ popHeadEq (f anchor).disp (dedupe (R.map f)),
      (r.color == "black") = false := by
    intro r hr
    obtain ⟨p, hp, rfl⟩ := List.mem_map.1 (dedupe_mem ((popHeadEq_sublist _ _).subset hr))
    have hcol : (f p).color = "green" := by
      rw [hf]
      simp only [projection_row]
      exact colorOf_of_gt (hR p hp)
    rw [hcol]
    decide
  have hb : ((f anchor).color == "black") = true := by
    have hcol : (f anchor).color = "black" := by
      rw [hf]
      simp only [projection_row]
      exact colorOf_self _
    rw [hcol]
    decide
  unfold assembleNonUSD
  rw [List.countP_append, List.countP_cons]
  rw [List.countP_eq_zero.2 (fun a ha => by rw [hredC a ha]; exact Bool.false_ne_true)]
  rw [List.countP_eq_zero.2 (fun a ha => by rw [hgreenC a ha]; exact Bool.false_ne_true)]
  rw [if_pos hb]

theorem pyRound2_int_div100 (a : ℤ) : pyRound2 ((a : ℚ) / 100) = (a : ℚ) / 100 := by
  unfold pyRound2
  rw [div_mul_cancel₀ _ (by norm_num : (100:ℚ) ≠ 0), roundHalfEven_intCast]

theorem pyRound2_thousand : pyRound2 (1000 : ℚ) = 1000 := by
  have h := pyRound2_int_div100 100000
  norm_num at h
  exact h

/-- C10: for every current price input, including zero and negative values,
`generate_price_intervals` returns (totally, without error) a non-empty,
strictly increasing, duplicate-free list in which every element equals its
own 2-decimal rounding and is at least one cent, and which contains the
clamped anchor `round(max(current_price_usd, 0.01), 2)`. -/
theorem spec_c10_intervals_wellformed {gs : GeomFn} (hgs : GeomSpec gs) (cp : ℚ) :
    generate_price_intervals gs cp ≠ [] ∧
    (generate_price_intervals gs cp).Pairwise (· < ·) ∧
    (generate_price_intervals gs cp).Nodup ∧
    (∀ x ∈ generate_price_intervals gs cp, x = pyRound2 x ∧ 1/100 ≤ x) ∧
    pyRound2 (max cp (1/100)) ∈ generate_price_intervals gs cp :=
  ⟨generate_price_intervals_ne_nil gs cp (1/100) 1000,
    generate_price_intervals_sorted gs cp (1/100) 1000,
    generate_price_intervals_nodup gs cp (1/100) 1000,
    fun x hx => ⟨generate_price_intervals_rounded hx, generate_price_intervals_ge hgs cp x hx⟩,
    anchor_mem_generate_price_intervals gs cp (1/100) 1000⟩

/-- Witness for C10 at the concrete input `current_price_usd = -3` with the
concrete sampler `linGeom`. -/
theorem spec_c10_intervals_wellformed_witness :
    generate_price_intervals linGeom (-3) ≠ [] ∧
    (generate_price_intervals linGeom (-3)).Pairwise (· < ·) ∧
    (generate_price_intervals linGeom (-3)).Nodup ∧
    (∀ x ∈ generate_price_intervals linGeom (-3), x = pyRound2 x ∧ 1/100 ≤ x) ∧
    pyRound2 (max (-3) (1/100)) ∈ generate_price_intervals linGeom (-3) :=
  spec_c10_intervals_wellformed linGeom_spec (-3)

/-- C6 (amended): with the current price at the ceiling (1000), the
above-section is empty — no interval price exceeds the anchor, and the list
degenerates to the below-section plus the anchor. -/
theorem spec_c6_above_empty_at_ceiling (gs : GeomFn) :
    (∀ x ∈ generate_price_intervals gs 1000, x ≤ pyRound2 1000) ∧
    pyRound2 1000 ∈ generate_price_intervals gs 1000 := by
  have hmax : max (1000 : ℚ) (1/100) = 1000 := max_eq_left (by norm_num)
  have hredmax : max (min ((1000 : ℚ) - 1/100) 1000) (1/100) = 99999/100 := by
    rw [show (1000:ℚ) - 1/100 = 99999/100 by norm_num,
      min_eq_left (by norm_num : (99999/100 : ℚ) ≤ 1000),
      max_eq_left (by norm_num : (1/100 : ℚ) ≤ 99999/100)]
  have h99999 : pyRound2 ((99999 : ℚ)/100) = 99999/100 := by
    have h := pyRound2_int_div100 99999
    norm_num at h
    exact h
  have hgstart : pyRound2 ((1000 : ℚ) + 1/100) = 100001/100 := by
    rw [show (1000:ℚ) + 1/100 = ((100001 : ℤ) : ℚ)/100 by norm_num]
    rw [pyRound2_int_div100 100001]
    norm_num
  constructor
  · intro x hx
    rw [generate_price_intervals_mem, List.mem_map] at hx
    obtain ⟨y, hy, rfl⟩ := hx
    rw [hmax, pyRound2_thousand, hredmax, hgstart] at hy
    rw [if_pos (by norm_num : (1000:ℚ) ≤ 100001/100)] at hy
    rw [if_pos (by norm_num : (1/100:ℚ) < 99999/100)] at hy
    rw [pyRound2_thousand]
    simp only [List.append_nil, List.mem_append, List.mem_singleton] at hy
    rcases hy with hy | hy
    · have hb := (linspace_mem_bounds (by norm_num : (1/100:ℚ) ≤ 99999/100) hy).2
      have := pyRound2_mono hb
      rw [h99999] at this
      linarith
    · rw [hy, pyRound2_thousand]
  · have hm := anchor_mem_generate_price_intervals gs 1000 (1/100) 1000
    rw [hmax] at hm
    exact hm

/-- Witness for C6 (amended): the anchor itself is an element, and the
theorem applied to it confirms nothing lies above it. -/
theorem spec_c6_above_empty_at_ceiling_witness :
    pyRound2 1000 ∈ generate_price_intervals gsEmpty 1000 ∧
    pyRound2 1000 ≤ pyRound2 1000 :=
  ⟨(spec_c6_above_empty_at_ceiling gsEmpty).2,
    (spec_c6_above_empty_at_ceiling gsEmpty).1 (pyRound2 1000)
      (spec_c6_above_empty_at_ceiling gsEmpty).2⟩

/-- Counterexample to C6 as stated: at `currentPrice = 999.5` the
above-section is NOT empty — the generated intervals still contain the
ceiling price 1000, which lies strictly above the anchor 999.5
(`green_start = round(999.51, 2) = 999.51 < 1000`, so
`np.geomspace(999.51, 1000, 240)` is generated). -/
theorem spec_c6_above_nonempty_at_999_5 :
    pyRound2 (1999/2) < 1000 ∧ (1000 : ℚ) ∈ generate_price_intervals linGeom (1999/2) := by
  have hv : pyRound2 ((1999 : ℚ)/2) = 1999/2 := by
    rw [show (1999:ℚ)/2 = ((99950 : ℤ) : ℚ)/100 by norm_num]
    rw [pyRound2_int_div100 99950]
  have hmax : max ((1999:ℚ)/2) (1/100) = 1999/2 := max_eq_left (by norm_num)
  have hgstart : pyRound2 ((1999:ℚ)/2 + 1/100) = 99951/100 := by
    rw [show (1999:ℚ)/2 + 1/100 = ((99951 : ℤ) : ℚ)/100 by norm_num]
    rw [pyRound2_int_div100 99951]
    norm_num
  refine ⟨by rw [hv]; norm_num, ?_⟩
  rw [generate_price_intervals_mem, List.mem_map]
  refine ⟨1000, ?_, pyRound2_thousand⟩
  rw [hmax, hv, hgstart]
  rw [if_neg (by norm_num : ¬ ((1000:ℚ) ≤ 99951/100))]
  refine List.mem_append_right _ ?_
  simp only [linGeom, linspace, List.mem_map, List.mem_range]
  refine ⟨239, by norm_num, by norm_num⟩

/-- C3 (amended): for every in-range input whose current price rounds to at
least one cent, the projection is total: it returns a table for any
holdings > 0, current price > 0, supply ≥ 0, any currency, any rate table. -/
theorem spec_c3_total_on_rounded_inputs (gs : GeomFn) (rates : String → Option ℚ)
    (kas cp supply : ℚ) (currency : String)
    (_hk : 0 < kas) (_hcp : 0 < cp) (_hsup : 0 ≤ supply)
    (hanch : 1/100 ≤ pyRound2 cp) :
    (generate_portfolio_projection gs rates kas cp supply currency).isSome = true := by
  by_cases hc : pyUpper currency = "USD"
  · rw [proj_eq_USD gs rates kas cp supply currency (anchor_mem_of_ge hanch) hc]
    rfl
  · obtain ⟨L, R, _, _, _, heq⟩ := proj_eq_nonUSD gs rates kas cp supply currency (anchor_mem_of_ge hanch) hc
    rw [heq]
    rfl

/-- Witness for C3 (amended) at holdings 2, price 2000, supply 5, EUR. -/
theorem spec_c3_total_on_rounded_inputs_witness :
    (generate_portfolio_projection gsEmpty EXCHANGE_RATES 2 2000 5 "EUR").isSome = true :=
  spec_c3_total_on_rounded_inputs gsEmpty EXCHANGE_RATES 2 2000 5 "EUR"
    (by norm_num) (by norm_num) (by norm_num)
    (by rw [show (2000:ℚ) = ((200000 : ℤ) : ℚ)/100 by norm_num, pyRound2_int_div100]
        norm_num)

/-- Counterexample to C3 as stated: the in-range input
`currentPrice = 0.004 > 0` (with positive holdings and non-negative supply)
makes `generate_portfolio_projection` raise `ValueError`: every interval
price is at least one cent, but the color anchor `round(0.004, 2) = 0.0`
matches none of them, so `colors.index("black")` fails. -/
theorem spec_c3_raises_below_half_cent :
    (0:ℚ) < 100 ∧ (0:ℚ) < 1/250 ∧ (0:ℚ) ≤ 25 ∧
    generate_portfolio_projection linGeom EXCHANGE_RATES 100 (1/250) 25 "USD" = none := by
  refine ⟨by norm_num, by norm_num, by norm_num, ?_⟩
  apply proj_eq_none
  intro p hp hblack
  rw [colorOf_eq_black_iff] at hblack
  have hge := generate_price_intervals_ge linGeom_spec (1/250) p hp
  have hz : pyRound2 ((1:ℚ)/250) = 0 := by
    rw [pyRound2_eval_lt (k := 0) (by norm_num) (by norm_num)]
    norm_num
  rw [hblack, hz] at hge
  norm_num at hge

/-- C9: the "price needed for a $1M portfolio" metric in the PDF exporter
(kpp.py:391): `1_000_000 / kas_amount if kas_amount > 0 else 0`. -/
def generate_portfolio_pdf_price_needed_for_1m_usd (kas_amount : ℚ) : ℚ :=
  if 0 < kas_amount then 1000000 / kas_amount else 0

/-- C9: the same metric in the key-metrics panel
(`update_display_if_valid`, kpp.py:870): `(1_000_000 / kaspa) if kaspa > 0 else 0`. -/
def update_display_price_needed_for_1m_usd (kaspa : ℚ) : ℚ :=
  if 0 < kaspa then 1000000 / kaspa else 0

/-- C9: with zero holdings, the "price needed for $1M portfolio" metric is 0
at both places it is computed — defined, not a division by zero. -/
theorem spec_c9_price_needed_1m_zero_holdings :
    generate_portfolio_pdf_price_needed_for_1m_usd 0 = 0 ∧
    update_display_price_needed_for_1m_usd 0 = 0 := by
  constructor
  · unfold generate_portfolio_pdf_price_needed_for_1m_usd
    rw [if_neg (lt_irrefl 0)]
  · unfold update_display_price_needed_for_1m_usd
    rw [if_neg (lt_irrefl 0)]

/-- C1 (amended): for every validated input (holdings > 0, price > 0,
supply ≥ 0, any currency code) and every rate table whose rates are all
positive and whose USD rate is 1 (the spec's data-model invariant, which the
shipped table and every fetched snapshot satisfy), whenever the current
price additionally rounds to at least one cent the projection returns a
table that is strictly ascending in display price and has exactly one row
colored black. -/
theorem spec_c1_table_sorted_unique_at (gs : GeomFn) (rates : String → Option ℚ)
    (kas cp supply : ℚ) (currency : String)
    (hpos : ∀ c q, rates c = some q → 0 < q)
    (husd : (rates "USD").getD 1 = 1)
    (_hk : 0 < kas) (_hcp : 0 < cp) (_hsup : 0 ≤ supply)
    (hanch : 1/100 ≤ pyRound2 cp) :
    ∃ tbl sym,
      generate_portfolio_projection gs rates kas cp supply currency =
        some (tbl, sym) ∧
      (tbl.map Row.disp).Pairwise (· < ·) ∧
      tbl.countP (fun r => r.color == "black") = 1 := by
  by_cases hc : pyUpper currency = "USD"
  · refine ⟨proj_rows gs rates kas cp supply currency, currency_symbol currency,
      proj_eq_USD gs rates kas cp supply currency (anchor_mem_of_ge hanch) hc, ?_, ?_⟩
    all_goals
      have hrate : proj_rate rates currency = 1 := by
        unfold proj_rate
        rw [hc]
        exact husd
    · -- strict ascent: with rate 1 the display price is the interval price
      unfold proj_rows
      rw [List.map_map, List.pairwise_map]
      refine List.Pairwise.imp_of_mem ?_ (generate_price_intervals_sorted gs cp (1/100) 1000)
      intro a b ha hb hab
      show (projection_row (proj_rate rates currency) kas (supply * 1000000000)
          (pyRound2 cp) a).disp < (projection_row _ kas (supply * 1000000000)
          (pyRound2 cp) b).disp
      simp only [projection_row]
      rw [hrate, mul_one, mul_one]
      rw [← generate_price_intervals_rounded ha, ← generate_price_intervals_rounded hb]
      exact hab
    · -- exactly one black row
      obtain ⟨L, R, hsplit, hL, hR⟩ := intervals_split (anchor_mem_of_ge hanch)
      unfold proj_rows
      rw [hsplit, List.map_append, List.map_cons, List.countP_append, List.countP_cons]
      have hLc : (L.map (projection_row (proj_rate rates currency) kas
          (supply * 1000000000) (pyRound2 cp))).countP (fun r => r.color == "black") = 0 := by
        refine List.countP_eq_zero.2 ?_
        intro r hr
        obtain ⟨p, hp, rfl⟩ := List.mem_map.1 hr
        simp only [projection_row, colorOf_of_lt (hL p hp)]
        decide
      have hRc : (R.map (projection_row (proj_rate rates currency) kas
          (supply * 1000000000) (pyRound2 cp))).countP (fun r => r.color == "black") = 0 := by
        refine List.countP_eq_zero.2 ?_
        intro r hr
        obtain ⟨p, hp, rfl⟩ := List.mem_map.1 hr
        simp only [projection_row, colorOf_of_gt (hR p hp)]
        decide
      rw [hLc, hRc]
      rw [if_pos (by simp only [projection_row, colorOf_self]; decide :
        ((projection_row (proj_rate rates currency) kas (supply * 1000000000)
          (pyRound2 cp) (pyRound2 cp)).color == "black") = true)]
  · have hrpos : 0 < proj_rate rates currency := by
      unfold proj_rate
      cases h : rates (pyUpper currency) with
      | none => norm_num
      | some q =>
        simp only [Option.getD_some]
        exact hpos _ q h
    obtain ⟨L, R, hsplit, hL, hR, heq⟩ :=
      proj_eq_nonUSD gs rates kas cp supply currency (anchor_mem_of_ge hanch) hc
    exact ⟨_, _, heq, assembleNonUSD_disp_sorted hrpos hL hR,
      assembleNonUSD_countP_black hL hR⟩

/-- Witness for C1 (amended) at holdings 1000, price 999.99, supply 25, JPY,
with the shipped rate table (all rates positive, USD rate 1). -/
theorem spec_c1_table_sorted_unique_at_witness :
    ∃ tbl sym,
      generate_portfolio_projection gsEmpty EXCHANGE_RATES 1000 (99999/100) 25 "JPY" =
        some (tbl, sym) ∧
      (tbl.map Row.disp).Pairwise (· < ·) ∧
      tbl.countP (fun r => r.color == "black") = 1 :=
  spec_c1_table_sorted_unique_at gsEmpty EXCHANGE_RATES 1000 (99999/100) 25 "JPY"
    (fun _ _ h => EXCHANGE_RATES_pos h) EXCHANGE_RATES_usd
    (by norm_num) (by norm_num) (by norm_num)
    (by rw [show (99999:ℚ)/100 = ((99999 : ℤ) : ℚ)/100 by norm_num, pyRound2_int_div100]
        norm_num)

/-- Counterexample to C1 as stated: `currentPrice = 0.002` is a validated
input (holdings > 0, price > 0, supply ≥ 0, known currency, all rates
positive), yet no projection table is returned at all —
`colors.index("black")` raises `ValueError`. -/
theorem spec_c1_no_table_below_half_cent :
    (0:ℚ) < 1000 ∧ (0:ℚ) < 1/500 ∧ (0:ℚ) ≤ 25 ∧
    generate_portfolio_projection linGeom EXCHANGE_RATES 1000 (1/500) 25 "EUR" = none := by
  refine ⟨by norm_num, by norm_num, by norm_num, ?_⟩
  apply proj_eq_none
  intro p hp hblack
  rw [colorOf_eq_black_iff] at hblack
  have hge := generate_price_intervals_ge linGeom_spec (1/500) p hp
  have hz : pyRound2 ((1:ℚ)/500) = 0 := by
    rw [pyRound2_eval_lt (k := 0) (by norm_num) (by norm_num)]
    norm_num
  rw [hblack, hz] at hge
  norm_num at hge

/-- C2: whenever the non-USD path assembles a table, the anchor row (built
from the rounded current price) is in the table — the dedup pass never
removes it — and no two adjacent rows share a display price.  This holds for
every rate table, without any positivity assumption. -/
theorem spec_c2_dedup_preserves_anchor_no_adjacent_dups {gs : GeomFn}
    {rates : String → Option ℚ} {kas cp supply : ℚ} {currency : String}
    {tbl : List Row} {sym : String}
    (hc : pyUpper currency ≠ "USD")
    (h : generate_portfolio_projection gs rates kas cp supply currency = some (tbl, sym)) :
    projection_row (proj_rate rates currency) kas (supply * 1000000000)
      (pyRound2 cp) (pyRound2 cp) ∈ tbl ∧
    (tbl.map Row.disp).Chain' (· ≠ ·) := by
  obtain ⟨L, R, hsplit, hL, hR, heq⟩ := proj_eq_nonUSD gs rates kas cp supply currency (proj_some_anchor_mem h) hc
  have h3 := Option.some.inj (h.symm.trans heq)
  have htbl : tbl = assembleNonUSD
      (projection_row (proj_rate rates currency) kas (supply * 1000000000) (pyRound2 cp))
      (pyRound2 cp) L R := congrArg Prod.fst h3
  rw [htbl]
  exact ⟨assembleNonUSD_anchor_mem _ _ _ _, assembleNonUSD_chain_ne _ _ L R⟩

/-- Witness for C2 at holdings 500, price 0.016, supply 20, JPY (the table
degenerates to the anchor row alone). -/
theorem spec_c2_dedup_preserves_anchor_no_adjacent_dups_witness :
    ∃ tbl sym,
      generate_portfolio_projection gsEmpty EXCHANGE_RATES 500 (2/125) 20 "JPY" =
        some (tbl, sym) ∧
      projection_row (proj_rate EXCHANGE_RATES "JPY") 500 (20 * 1000000000)
        (pyRound2 (2/125)) (pyRound2 (2/125)) ∈ tbl ∧
      (tbl.map Row.disp).Chain' (· ≠ ·) := by
  have hc : (pyUpper "JPY" ≠ "USD") := by decide
  have hanch : (1:ℚ)/100 ≤ pyRound2 (2/125) := by
    rw [pyRound2_eval_gt (k := 1) (by norm_num) (by norm_num)]
    norm_num
  obtain ⟨L, R, _, _, _, heq⟩ := proj_eq_nonUSD gsEmpty EXCHANGE_RATES 500 (2/125) 20 "JPY" (anchor_mem_of_ge hanch) hc
  exact ⟨_, _, heq, spec_c2_dedup_preserves_anchor_no_adjacent_dups hc heq⟩

/-- C4: whenever the projection returns a table for a USD request (with the
USD rate 1, as in the shipped and every fetched table), the transform is the
identity on the generated interval sequence: the USD column is exactly the
interval list (no removal, no reordering) and every display price equals the
already-rounded base USD price. -/
theorem spec_c4_usd_identity {gs : GeomFn} {rates : String → Option ℚ}
    {kas cp supply : ℚ} {currency : String} {tbl : List Row} {sym : String}
    (hc : pyUpper currency = "USD") (hrate : (rates "USD").getD 1 = 1)
    (h : generate_portfolio_projection gs rates kas cp supply currency = some (tbl, sym)) :
    tbl.map Row.usd = generate_price_intervals gs cp ∧
    ∀ r ∈ tbl, r.disp = r.usd := by
  have heq := proj_eq_USD gs rates kas cp supply currency (proj_some_anchor_mem h) hc
  have h3 := Option.some.inj (h.symm.trans heq)
  have htbl : tbl = proj_rows gs rates kas cp supply currency := congrArg Prod.fst h3
  have hr1 : proj_rate rates currency = 1 := by
    unfold proj_rate
    rw [hc, hrate]
  rw [htbl]
  constructor
  · unfold proj_rows
    rw [List.map_map]
    exact List.map_id _
  · intro r hr
    obtain ⟨p, hp, rfl⟩ := List.mem_map.1 hr
    show (projection_row (proj_rate rates currency) kas (supply * 1000000000)
      (pyRound2 cp) p).disp = _
    simp only [projection_row]
    rw [hr1, mul_one]
    exact (generate_price_intervals_rounded hp).symm

/-- Witness for C4 at holdings 7, price 2000, supply 3, USD. -/
theorem spec_c4_usd_identity_witness :
    ∃ tbl sym,
      generate_portfolio_projection gsEmpty EXCHANGE_RATES 7 2000 3 "USD" =
        some (tbl, sym) ∧
      tbl.map Row.usd = generate_price_intervals gsEmpty 2000 ∧
      ∀ r ∈ tbl, r.disp = r.usd := by
  have hc : (pyUpper "USD" = "USD") := by decide
  have hanch : (1:ℚ)/100 ≤ pyRound2 (2000 : ℚ) := by
    rw [show (2000:ℚ) = ((200000 : ℤ) : ℚ)/100 by norm_num, pyRound2_int_div100]
    norm_num
  have heq := proj_eq_USD gsEmpty EXCHANGE_RATES 7 2000 3 "USD" (anchor_mem_of_ge hanch) hc
  exact ⟨_, _, heq, spec_c4_usd_identity hc EXCHANGE_RATES_usd heq⟩

/-- Every red/green row of the reassembled non-USD table comes from its own
section of the source prices, and whenever a source price of the same section
collides with it on rounded display price, the retained row's underlying USD
price is the smaller one. -/
theorem assembleNonUSD_min_usd {rate kas circ anchor : ℚ} {L R : List ℚ}
    (hL : ∀ p ∈ L, p < anchor) (hR : ∀ p ∈ R, anchor < p) :
    ∀ r ∈ assembleNonUSD (projection_row rate kas circ anchor) anchor L R,
      (r.color = "red" ∨ r.color = "green") →
      (r.usd ∈ L ∨ r.usd ∈ R) ∧
      ∀ p, (p ∈ L ∨ p ∈ R) → colorOf anchor p = r.color →
        pyRound2 (p * rate) = r.disp → r.usd ≤ p := by
  set f := projection_row rate kas circ anchor with hf
  intro r hr hcolor
  unfold assembleNonUSD at hr
  rcases List.mem_append.1 hr with hrr | hrg
  · -- red section
    have hrd : r ∈ dedupe (L.map f) := (popLastEq_sublist _ _).subset hrr
    obtain ⟨p0, hp0, rfl⟩ := List.mem_map.1 (dedupe_mem hrd)
    have hcolr : (f p0).color = "red" := by
      rw [hf]
      simp only [projection_row]
      exact colorOf_of_lt (hL p0 hp0)
    refine ⟨Or.inl hp0, ?_⟩
    intro p hp hcol hdisp
    rw [hcolr, colorOf_eq_red_iff] at hcol
    have hpL : p ∈ L := by
      rcases hp with h1 | h1
      · exact h1
      · exact absurd hcol (not_lt.2 (le_of_lt (hR p h1)))
    have hde : (f p).disp = (f p0).disp := hdisp
    have hmin := dedupe_min hrd (f p) (List.mem_map_of_mem f hpL) hde
    rcases hmin with hlt | ⟨_, hle⟩
    · rw [hde] at hlt
      exact absurd hlt (lt_irrefl _)
    · exact hle
  · rcases List.mem_cons.1 hrg with hreq | hrg2
    · -- the anchor row is black, contradicting the color hypothesis
      have hcolb : r.color = "black" := by
        rw [hreq, hf]
        simp only [projection_row]
        exact colorOf_self _
      rcases hcolor with hcr | hcg
      · rw [hcolb] at hcr
        exact absurd hcr (by decide)
      · rw [hcolb] at hcg
        exact absurd hcg (by decide)
    · -- green section
      have hrd : r ∈ dedupe (R.map f) := (popHeadEq_sublist _ _).subset hrg2
      obtain ⟨p0, hp0, rfl⟩ := List.mem_map.1 (dedupe_mem hrd)
      have hcolg : (f p0).color = "green" := by
        rw [hf]
        simp only [projection_row]
        exact colorOf_of_gt (hR p0 hp0)
      refine ⟨Or.inr hp0, ?_⟩
      intro p hp hcol hdisp
      rw [hcolg, colorOf_eq_green_iff] at hcol
      have hpR : p ∈ R := by
        rcases hp with h1 | h1
        · exact absurd hcol (not_lt.2 (le_of_lt (hL p h1)))
        · exact h1
      have hde : (f p).disp = (f p0).disp := hdisp
      have hmin := dedupe_min hrd (f p) (List.mem_map_of_mem f hpR) hde
      rcases hmin with hlt | ⟨_, hle⟩
      · rw [hde] at hlt
        exact absurd hlt (lt_irrefl _)
      · exact hle

/-- C7: in the non-USD path, whenever a table is returned, every below-row
(red) and above-row (green) originates from the generated interval prices of
its own section, and whenever another interval price of the same section
collides with it on rounded display price, the retained row carries the
smaller (or equal) underlying USD price — the dedup keeps the first
occurrence in `(displayPrice, usdPrice)` order. -/
theorem spec_c7_dedup_keeps_min_usd {gs : GeomFn} {rates : String → Option ℚ}
    {kas cp supply : ℚ} {currency : String} {tbl : List Row} {sym : String}
    (hc : pyUpper currency ≠ "USD")
    (h : generate_portfolio_projection gs rates kas cp supply currency = some (tbl, sym)) :
    ∀ r ∈ tbl, (r.color = "red" ∨ r.color = "green") →
      r.usd ∈ generate_price_intervals gs cp ∧
      ∀ p ∈ generate_price_intervals gs cp,
        colorOf (pyRound2 cp) p = r.color →
        pyRound2 (p * proj_rate rates currency) = r.disp →
        r.usd ≤ p := by
  obtain ⟨L, R, hsplit, hL, hR, heq⟩ := proj_eq_nonUSD gs rates kas cp supply currency (proj_some_anchor_mem h) hc
  have h3 := Option.some.inj (h.symm.trans heq)
  have htbl : tbl = assembleNonUSD
      (projection_row (proj_rate rates currency) kas (supply * 1000000000) (pyRound2 cp))
      (pyRound2 cp) L R := congrArg Prod.fst h3
  intro r hr hcolor
  rw [htbl] at hr
  obtain ⟨hsec, hmin⟩ := assembleNonUSD_min_usd hL hR r hr hcolor
  constructor
  · rw [hsplit]
    rcases hsec with h1 | h1
    · exact List.mem_append_left _ h1
    · exact List.mem_append_right _ (List.mem_cons_of_mem _ h1)
  · intro p hp hcol hdisp
    have hpsec : p ∈ L ∨ p ∈ R := by
      rw [hsplit] at hp
      rcases List.mem_append.1 hp with h1 | h1
      · exact Or.inl h1
      · rcases List.mem_cons.1 h1 with rfl | h1
        · -- the anchor itself is colored black, not red/green
          rw [colorOf_self] at hcol
          rcases hcolor with hcr | hcg
          · rw [← hcol] at hcr
            exact absurd hcr (by decide)
          · rw [← hcol] at hcg
            exact absurd hcg (by decide)
        · exact Or.inr h1
    exact hmin p hpsec hcol hdisp

/-- Witness for C7 at holdings 10, price 0.016, supply 5, EUR. -/
theorem spec_c7_dedup_keeps_min_usd_witness :
    ∃ tbl sym,
      generate_portfolio_projection gsEmpty EXCHANGE_RATES 10 (2/125) 5 "EUR" =
        some (tbl, sym) ∧
      ∀ r ∈ tbl, (r.color = "red" ∨ r.color = "green") →
        r.usd ∈ generate_price_intervals gsEmpty (2/125) ∧
        ∀ p ∈ generate_price_intervals gsEmpty (2/125),
          colorOf (pyRound2 (2/125)) p = r.color →
          pyRound2 (p * proj_rate EXCHANGE_RATES "EUR") = r.disp →
          r.usd ≤ p := by
  have hc : (pyUpper "EUR" ≠ "USD") := by decide
  have hanch : (1:ℚ)/100 ≤ pyRound2 (2/125) := by
    rw [pyRound2_eval_gt (k := 1) (by norm_num) (by norm_num)]
    norm_num
  obtain ⟨L, R, _, _, _, heq⟩ := proj_eq_nonUSD gsEmpty EXCHANGE_RATES 10 (2/125) 5 "EUR" (anchor_mem_of_ge hanch) hc
  exact ⟨_, _, heq, spec_c7_dedup_keeps_min_usd hc heq⟩

/-- Slider bounds (`_slider_bounds`, kpp.py:962-968): the floor is the
rounded current price, at least one cent; the ceiling is fixed at 1000. -/
def slider_bounds (current_price : ℚ) : ℚ × ℚ :=
  (max (pyRound2 current_price) (1/100), 1000)

/-- Forward slider mapping (`update_slider_values`, kpp.py:981-984): clamp
the position into `[0, 100]`, then interpolate geometrically,
`min_p * (max_p / min_p) ** (pos / 100)`; with a degenerate range the price
sticks at the floor.  The real power is `Real.rpow`, the exact idealization
of the floating-point `**`. -/
noncomputable def priceAtSliderPosition (min_p max_p pos : ℝ) : ℝ :=
  let p := min (max pos 0) 100
  if min_p < max_p then min_p * (max_p / min_p) ^ (p / 100) else min_p

/-- Inverse mapping (`update_slider_from_entry`, kpp.py:970-979): clamp the
entered price into the bounds, then
`100 * log(entered / min_p) / log(max_p / min_p)`; with a degenerate range
the slider is not moved (`none`). -/
noncomputable def sliderPositionForPrice (min_p max_p entered : ℝ) : Option ℝ :=
  let e := min (max entered min_p) max_p
  if min_p < max_p then
    some (100 * Real.log (e / min_p) / Real.log (max_p / min_p))
  else none

theorem slider_bounds_pos (cp : ℚ) : (0:ℝ) < ((slider_bounds cp).1 : ℝ) := by
  have h : (0:ℚ) < (slider_bounds cp).1 :=
    lt_of_lt_of_le (by norm_num) (le_max_right (pyRound2 cp) (1/100))
  exact_mod_cast h

theorem slider_bounds_lt {cp : ℚ} (hlt : pyRound2 cp < 1000) :
    ((slider_bounds cp).1 : ℝ) < ((slider_bounds cp).2 : ℝ) := by
  have h : (slider_bounds cp).1 < (slider_bounds cp).2 := by
    show max (pyRound2 cp) (1/100) < (1000 : ℚ)
    exact max_lt hlt (by norm_num)
  exact_mod_cast h

/-- C8: the forward slider mapping sends position 0 to the floor and
position 100 to the ceiling, and is strictly increasing on `[0, 100]`
whenever the ceiling exceeds the floor `max(round(cp, 2), 0.01)`. -/
theorem spec_c8_slider_forward_mapping (cp : ℚ) (hlt : pyRound2 cp < 1000) :
    priceAtSliderPosition ((slider_bounds cp).1 : ℝ) ((slider_bounds cp).2 : ℝ) 0 =
      ((slider_bounds cp).1 : ℝ) ∧
    priceAtSliderPosition ((slider_bounds cp).1 : ℝ) ((slider_bounds cp).2 : ℝ) 100 =
      ((slider_bounds cp).2 : ℝ) ∧
    ∀ p q : ℝ, 0 ≤ p → p < q → q ≤ 100 →
      priceAtSliderPosition ((slider_bounds cp).1 : ℝ) ((slider_bounds cp).2 : ℝ) p <
        priceAtSliderPosition ((slider_bounds cp).1 : ℝ) ((slider_bounds cp).2 : ℝ) q := by
  have hf0 := slider_bounds_pos cp
  have hfc := slider_bounds_lt hlt
  have hbase : (1:ℝ) < ((slider_bounds cp).2 : ℝ) / ((slider_bounds cp).1 : ℝ) :=
    (one_lt_div hf0).2 hfc
  refine ⟨?_, ?_, ?_⟩
  · unfold priceAtSliderPosition
    rw [max_self, min_eq_left (by norm_num : (0:ℝ) ≤ 100), if_pos hfc]
    rw [zero_div, Real.rpow_zero, mul_one]
  · unfold priceAtSliderPosition
    rw [max_eq_left (by norm_num : (0:ℝ) ≤ 100), min_self, if_pos hfc]
    rw [show (100:ℝ)/100 = 1 by norm_num, Real.rpow_one]
    rw [mul_comm, div_mul_cancel₀ _ (ne_of_gt hf0)]
  · intro p q h0 hpq h100
    unfold priceAtSliderPosition
    rw [max_eq_left h0, min_eq_left (by linarith), if_pos hfc]
    rw [max_eq_left (by linarith), min_eq_left h100, if_pos hfc]
    refine mul_lt_mul_of_pos_left ?_ hf0
    exact Real.rpow_lt_rpow_of_exponent_lt hbase (by linarith)

/-- Witness for C8 at current price 0.25, with the monotonicity part
instantiated at positions 10 < 90. -/
theorem spec_c8_slider_forward_mapping_witness :
    priceAtSliderPosition ((slider_bounds (1/4)).1 : ℝ) ((slider_bounds (1/4)).2 : ℝ) 0 =
      ((slider_bounds (1/4)).1 : ℝ) ∧
    priceAtSliderPosition ((slider_bounds (1/4)).1 : ℝ) ((slider_bounds (1/4)).2 : ℝ) 100 =
      ((slider_bounds (1/4)).2 : ℝ) ∧
    priceAtSliderPosition ((slider_bounds (1/4)).1 : ℝ) ((slider_bounds (1/4)).2 : ℝ) 10 <
      priceAtSliderPosition ((slider_bounds (1/4)).1 : ℝ) ((slider_bounds (1/4)).2 : ℝ) 90 := by
  have hlt : pyRound2 ((1:ℚ)/4) < 1000 := by
    rw [show (1:ℚ)/4 = ((25 : ℤ) : ℚ)/100 by norm_num, pyRound2_int_div100]
    norm_num
  have h := spec_c8_slider_forward_mapping (1/4) hlt
  exact ⟨h.1, h.2.1, h.2.2 10 90 (by norm_num) (by norm_num) (by norm_num)⟩

/-- C5: for every slider position in `[0, 100]`, mapping the position to a
price by the forward log-scale mapping and back by the inverse mapping (with
its clamp into the bounds) returns the position exactly (in the real-number
idealization), provided the ceiling exceeds the floor. -/
theorem spec_c5_slider_roundtrip (cp : ℚ) (p : ℝ) (hlt : pyRound2 cp < 1000)
    (h0 : 0 ≤ p) (h1 : p ≤ 100) :
    sliderPositionForPrice ((slider_bounds cp).1 : ℝ) ((slider_bounds cp).2 : ℝ)
      (priceAtSliderPosition ((slider_bounds cp).1 : ℝ) ((slider_bounds cp).2 : ℝ) p) =
      some p := by
  have hf0 := slider_bounds_pos cp
  have hfc := slider_bounds_lt hlt
  have hbase : (1:ℝ) < ((slider_bounds cp).2 : ℝ) / ((slider_bounds cp).1 : ℝ) :=
    (one_lt_div hf0).2 hfc
  have hbase0 : (0:ℝ) < ((slider_bounds cp).2 : ℝ) / ((slider_bounds cp).1 : ℝ) :=
    lt_trans one_pos hbase
  have hprice : priceAtSliderPosition ((slider_bounds cp).1 : ℝ) ((slider_bounds cp).2 : ℝ) p =
      ((slider_bounds cp).1 : ℝ) *
        (((slider_bounds cp).2 : ℝ) / ((slider_bounds cp).1 : ℝ)) ^ (p / 100) := by
    unfold priceAtSliderPosition
    rw [max_eq_left h0, min_eq_left h1, if_pos hfc]
  rw [hprice]
  have hone : (1:ℝ) ≤ (((slider_bounds cp).2 : ℝ) / ((slider_bounds cp).1 : ℝ)) ^ (p / 100) := by
    have h2 := Real.rpow_le_rpow_of_exponent_le (le_of_lt hbase)
      (by positivity : (0:ℝ) ≤ p / 100)
    rw [Real.rpow_zero] at h2
    exact h2
  have hge : ((slider_bounds cp).1 : ℝ) ≤ ((slider_bounds cp).1 : ℝ) *
      (((slider_bounds cp).2 : ℝ) / ((slider_bounds cp).1 : ℝ)) ^ (p / 100) := by
    calc ((slider_bounds cp).1 : ℝ) = ((slider_bounds cp).1 : ℝ) * 1 := (mul_one _).symm
      _ ≤ _ := mul_le_mul_of_nonneg_left hone (le_of_lt hf0)
  have hle : ((slider_bounds cp).1 : ℝ) *
      (((slider_bounds cp).2 : ℝ) / ((slider_bounds cp).1 : ℝ)) ^ (p / 100) ≤
      ((slider_bounds cp).2 : ℝ) := by
    have h2 := Real.rpow_le_rpow_of_exponent_le (le_of_lt hbase)
      (by linarith : p / 100 ≤ (1:ℝ))
    rw [Real.rpow_one] at h2
    calc ((slider_bounds cp).1 : ℝ) * _ ≤ ((slider_bounds cp).1 : ℝ) *
          (((slider_bounds cp).2 : ℝ) / ((slider_bounds cp).1 : ℝ)) :=
        mul_le_mul_of_nonneg_left h2 (le_of_lt hf0)
      _ = ((slider_bounds cp).2 : ℝ) := by rw [mul_comm, div_mul_cancel₀ _ (ne_of_gt hf0)]
  unfold sliderPositionForPrice
  dsimp only
  rw [max_eq_left hge, min_eq_left hle, if_pos hfc]
  refine congrArg some ?_
  have hq : ((slider_bounds cp).1 : ℝ) *
      (((slider_bounds cp).2 : ℝ) / ((slider_bounds cp).1 : ℝ)) ^ (p / 100) /
      ((slider_bounds cp).1 : ℝ) =
      (((slider_bounds cp).2 : ℝ) / ((slider_bounds cp).1 : ℝ)) ^ (p / 100) := by
    rw [mul_comm, mul_div_assoc, div_self (ne_of_gt hf0), mul_one]
  rw [hq, Real.log_rpow hbase0]
  have hlogpos : 0 < Real.log (((slider_bounds cp).2 : ℝ) / ((slider_bounds cp).1 : ℝ)) :=
    Real.log_pos hbase
  field_simp

/-- Witness for C5 at current price 0.25 and position 50. -/
theorem spec_c5_slider_roundtrip_witness :
    sliderPositionForPrice ((slider_bounds (1/4)).1 : ℝ) ((slider_bounds (1/4)).2 : ℝ)
      (priceAtSliderPosition ((slider_bounds (1/4)).1 : ℝ) ((slider_bounds (1/4)).2 : ℝ) 50) =
      some 50 :=
  spec_c5_slider_roundtrip (1/4) 50
    (by rw [show (1:ℚ)/4 = ((25 : ℤ) : ℚ)/100 by norm_num, pyRound2_int_div100]
        norm_num)
    (by norm_num) (by norm_num)

end KPP
